import Mathlib

/-! Shallow embedding of scripts/gpx_to_svg.py (the coordinate normalizer
and the SVG path serializer) over the real numbers, with the properties of
the specification proved about it.

Python floats are idealised as real numbers; Python round (banker's
rounding, ties to even) is modelled by pyRound, and the fixed-point
formatting of f-strings with two decimals by fmt2. -/

namespace GpxToSvg

noncomputable section

/-- A GPX sample as the tuple (latitude, longitude, elevation) used in
gpx_to_svg.py. -/
abbrev Sample : Type := ℝ × ℝ × ℝ

/-- Canvas width, as set in normalize_coordinates and create_svg. -/
def width : ℝ := 800

/-- Canvas height, as set in normalize_coordinates and create_svg. -/
def height : ℝ := 600

/-- Canvas margin, as set in normalize_coordinates. -/
def margin : ℝ := 20

/-- math.radians: degrees to radians. -/
def radians (d : ℝ) : ℝ := d * (Real.pi / 180)

/-- Python round to the nearest integer, ties to even (banker's rounding),
the semantics of built-in round on an exact value. -/
def pyRound (x : ℝ) : ℤ :=
  if x - ⌊x⌋ < 1 / 2 then ⌊x⌋
  else if 1 / 2 < x - ⌊x⌋ then ⌊x⌋ + 1
  else if 2 ∣ ⌊x⌋ then ⌊x⌋ else ⌊x⌋ + 1

/-- Python round(x, 2): round to two decimal places. -/
def pyRound2 (x : ℝ) : ℝ := (pyRound (x * 100) : ℝ) / 100

/-- The helper haversine_km nested in normalize_coordinates: great-circle
distance in km, Earth radius 6371 km.  math.asin is idealised by
Real.arcsin. -/
def haversine_km (aLat aLon bLat bLon : ℝ) : ℝ :=
  let R : ℝ := 6371
  let dlat := radians (bLat - aLat)
  let dlon := radians (bLon - aLon)
  let a := Real.sin (dlat / 2) ^ 2 +
    Real.cos (radians aLat) * Real.cos (radians bLat) * Real.sin (dlon / 2) ^ 2
  let c := 2 * Real.arcsin (Real.sqrt a)
  R * c

/-- Python min over a non-empty list, as a fold from its head. -/
def listMin (a : ℝ) (l : List ℝ) : ℝ := l.foldl min a

/-- Python max over a non-empty list, as a fold from its head. -/
def listMax (a : ℝ) (l : List ℝ) : ℝ := l.foldl max a

/-- min(lats) in normalize_coordinates (0 for an empty list, which the
function never queries). -/
def min_lat : List Sample → ℝ
  | [] => 0
  | p :: rest => listMin p.1 (rest.map fun q => q.1)

/-- max(lats) in normalize_coordinates. -/
def max_lat : List Sample → ℝ
  | [] => 0
  | p :: rest => listMax p.1 (rest.map fun q => q.1)

/-- min(lons) in normalize_coordinates. -/
def min_lon : List Sample → ℝ
  | [] => 0
  | p :: rest => listMin p.2.1 (rest.map fun q => q.2.1)

/-- max(lons) in normalize_coordinates. -/
def max_lon : List Sample → ℝ
  | [] => 0
  | p :: rest => listMax p.2.1 (rest.map fun q => q.2.1)

/-- lat_range = max_lat - min_lat. -/
def lat_range (pts : List Sample) : ℝ := max_lat pts - min_lat pts

/-- lon_range = max_lon - min_lon. -/
def lon_range (pts : List Sample) : ℝ := max_lon pts - min_lon pts

/-- scale_lat = (height - 2 * margin) / lat_range if lat_range > 0 else 1. -/
def scale_lat (pts : List Sample) : ℝ :=
  if lat_range pts > 0 then (height - 2 * margin) / lat_range pts else 1

/-- scale_lon = (width - 2 * margin) / lon_range if lon_range > 0 else 1. -/
def scale_lon (pts : List Sample) : ℝ :=
  if lon_range pts > 0 then (width - 2 * margin) / lon_range pts else 1

/-- scale = min(scale_lat, scale_lon). -/
def scale (pts : List Sample) : ℝ := min (scale_lat pts) (scale_lon pts)

/-- The for-loop of normalize_coordinates: builds the normalized (x, y)
points and the (rounded cumulative distance, rounded elevation) profile,
threading the previous sample and the accumulator. -/
def normLoop (mLat mLon s : ℝ) (prevLat prevLon cum : ℝ) :
    List Sample → List (ℝ × ℝ) × List (ℝ × ℝ)
  | [] => ([], [])
  | (lat, lon, ele) :: rest =>
      let x := margin + (lon - mLon) * s
      let y := height - margin - (lat - mLat) * s
      let cum2 := cum + haversine_km prevLat prevLon lat lon
      let r := normLoop mLat mLon s lat lon cum2 rest
      ((x, y) :: r.1, (pyRound2 cum2, (pyRound ele : ℝ)) :: r.2)

/-- normalize_coordinates: empty input gives two empty lists; otherwise the
loop starts with the first sample as the previous sample and accumulator
0.0. -/
def normalize_coordinates : List Sample → List (ℝ × ℝ) × List (ℝ × ℝ)
  | [] => ([], [])
  | p :: rest =>
      normLoop (min_lat (p :: rest)) (min_lon (p :: rest)) (scale (p :: rest))
        p.1 p.2.1 0 (p :: rest)

/-- The raw (unrounded) cumulative-distance accumulator values, one per
sample, threading previous sample and accumulator exactly as the loop
does. -/
def cumSeq (prevLat prevLon cum : ℝ) : List Sample → List ℝ
  | [] => []
  | (lat, lon, _) :: rest =>
      let cum2 := cum + haversine_km prevLat prevLon lat lon
      cum2 :: cumSeq lat lon cum2 rest

/-- The drawing point normalize_coordinates assigns to sample p of the
input pts. -/
def pointOf (pts : List Sample) (p : Sample) : ℝ × ℝ :=
  (margin + (p.2.1 - min_lon pts) * scale pts,
   height - margin - (p.1 - min_lat pts) * scale pts)

/-- Python str.join with a separator, as used for the path data string. -/
def joinWith (sep : String) : List String → String
  | [] => ""
  | [s] => s
  | s :: rest => s ++ sep ++ joinWith sep rest

/-- A natural number below 100 printed with two digits. -/
def pad2 (m : ℕ) : String := if m < 10 then "0" ++ toString m else toString m

/-- Fixed-point formatting with two decimals, the f-string format .2f
idealised on an exact value. -/
def fmt2 (x : ℝ) : String :=
  let n : ℤ := pyRound (x * 100)
  (if x < 0 then "-" else "") ++ toString (n.natAbs / 100) ++ "." ++
    pad2 (n.natAbs % 100)

/-- One x,y coordinate pair of the path data string. -/
def coordStr (x y : ℝ) : String := fmt2 x ++ "," ++ fmt2 y

/-- The path serializer of create_svg: the early return on an empty point
list yields no path; otherwise the path data string joins the formatted
points with line commands after an initial move command. -/
def build_path (points : List (ℝ × ℝ)) : Option String :=
  match points with
  | [] => none
  | p :: rest =>
      some ("M " ++ joinWith " L " ((p :: rest).map fun q => coordStr q.1 q.2))

/-- One command of a PathDescription: move to a point or draw a line to a
point. -/
inductive PathCmd where
  | moveTo (x y : ℝ) : PathCmd
  | lineTo (x y : ℝ) : PathCmd

/-- Render one path command in SVG path syntax, coordinates with two
decimals. -/
def renderCmd : PathCmd → String
  | PathCmd.moveTo x y => "M " ++ coordStr x y
  | PathCmd.lineTo x y => "L " ++ coordStr x y

/-- Render a command sequence, space separated. -/
def renderCmds : List PathCmd → String
  | [] => ""
  | [c] => renderCmd c
  | c :: rest => renderCmd c ++ " " ++ renderCmds rest

/-- The PathDescription of the specification: move to the first point, then
a line to each subsequent point in order. -/
def pathCmds (points : List (ℝ × ℝ)) : List PathCmd :=
  match points with
  | [] => []
  | p :: rest => PathCmd.moveTo p.1 p.2 :: rest.map fun q => PathCmd.lineTo q.1 q.2

end

/-! Helper lemmas about the fold-based minimum and maximum. -/

lemma listMin_le_init (l : List ℝ) : ∀ a : ℝ, listMin a l ≤ a := by
  induction l with
  | nil => intro a; simp [listMin]
  | cons c t ih =>
      intro a
      have h := ih (min a c)
      simp only [listMin, List.foldl_cons] at h ⊢
      exact le_trans h (min_le_left a c)

lemma listMin_le_mem (l : List ℝ) (b : ℝ) : ∀ a : ℝ, b ∈ l → listMin a l ≤ b := by
  induction l with
  | nil => intro a hb; cases hb
  | cons c t ih =>
      intro a hb
      simp only [listMin, List.foldl_cons]
      rcases List.mem_cons.mp hb with hb | hb
      · subst hb
        exact le_trans (listMin_le_init t (min a b)) (min_le_right a b)
      · exact ih (min a c) hb

lemma le_listMax_init (l : List ℝ) : ∀ a : ℝ, a ≤ listMax a l := by
  induction l with
  | nil => intro a; simp [listMax]
  | cons c t ih =>
      intro a
      have h := ih (max a c)
      simp only [listMax, List.foldl_cons] at h ⊢
      exact le_trans (le_max_left a c) h

lemma mem_le_listMax (l : List ℝ) (b : ℝ) : ∀ a : ℝ, b ∈ l → b ≤ listMax a l := by
  induction l with
  | nil => intro a hb; cases hb
  | cons c t ih =>
      intro a hb
      simp only [listMax, List.foldl_cons]
      rcases List.mem_cons.mp hb with hb | hb
      · subst hb
        exact le_trans (le_max_right a b) (le_listMax_init t (max a b))
      · exact ih (max a c) hb

/-! Bounding-box lemmas: the box contains every sample. -/

lemma min_lat_le {pts : List Sample} {p : Sample} (hp : p ∈ pts) :
    min_lat pts ≤ p.1 := by
  cases pts with
  | nil => cases hp
  | cons q rest =>
      rcases List.mem_cons.mp hp with h | h
      · subst h; exact listMin_le_init _ _
      · exact listMin_le_mem _ _ _ (List.mem_map.mpr ⟨p, h, rfl⟩)

lemma le_max_lat {pts : List Sample} {p : Sample} (hp : p ∈ pts) :
    p.1 ≤ max_lat pts := by
  cases pts with
  | nil => cases hp
  | cons q rest =>
      rcases List.mem_cons.mp hp with h | h
      · subst h; exact le_listMax_init _ _
      · exact mem_le_listMax _ _ _ (List.mem_map.mpr ⟨p, h, rfl⟩)

lemma min_lon_le {pts : List Sample} {p : Sample} (hp : p ∈ pts) :
    min_lon pts ≤ p.2.1 := by
  cases pts with
  | nil => cases hp
  | cons q rest =>
      rcases List.mem_cons.mp hp with h | h
      · subst h; exact listMin_le_init _ _
      · exact listMin_le_mem _ _ _ (List.mem_map.mpr ⟨p, h, rfl⟩)

lemma le_max_lon {pts : List Sample} {p : Sample} (hp : p ∈ pts) :
    p.2.1 ≤ max_lon pts := by
  cases pts with
  | nil => cases hp
  | cons q rest =>
      rcases List.mem_cons.mp hp with h | h
      · subst h; exact le_listMax_init _ _
      · exact mem_le_listMax _ _ _ (List.mem_map.mpr ⟨p, h, rfl⟩)

/-! Positivity of the scales. -/

lemma scale_lat_pos (pts : List Sample) : 0 < scale_lat pts := by
  unfold scale_lat
  split_ifs with h
  · exact div_pos (by norm_num [height, margin]) h
  · exact one_pos

lemma scale_lon_pos (pts : List Sample) : 0 < scale_lon pts := by
  unfold scale_lon
  split_ifs with h
  · exact div_pos (by norm_num [width, margin]) h
  · exact one_pos

lemma scale_pos (pts : List Sample) : 0 < scale pts :=
  lt_min (scale_lat_pos pts) (scale_lon_pos pts)

/-! Rounding lemmas. -/

lemma floor_le_pyRound (x : ℝ) : ⌊x⌋ ≤ pyRound x := by
  unfold pyRound
  split_ifs <;> omega

lemma pyRound_le_floor_add_one (x : ℝ) : pyRound x ≤ ⌊x⌋ + 1 := by
  unfold pyRound
  split_ifs <;> omega

lemma pyRound_mono {x y : ℝ} (hxy : x ≤ y) : pyRound x ≤ pyRound y := by
  rcases lt_or_eq_of_le (Int.floor_mono hxy) with h | h
  · calc pyRound x ≤ ⌊x⌋ + 1 := pyRound_le_floor_add_one x
      _ ≤ ⌊y⌋ := by omega
      _ ≤ pyRound y := floor_le_pyRound y
  · unfold pyRound
    rw [← h]
    split_ifs <;> first | omega | linarith

lemma pyRound_zero : pyRound 0 = 0 := by
  unfold pyRound
  norm_num

lemma pyRound2_mono {x y : ℝ} (hxy : x ≤ y) : pyRound2 x ≤ pyRound2 y := by
  unfold pyRound2
  have h : pyRound (x * 100) ≤ pyRound (y * 100) :=
    pyRound_mono (by linarith)
  have h2 : (pyRound (x * 100) : ℝ) ≤ (pyRound (y * 100) : ℝ) := by
    exact_mod_cast h
  linarith

lemma pyRound2_zero : pyRound2 0 = 0 := by
  unfold pyRound2
  rw [zero_mul, pyRound_zero]
  norm_num

/-! Haversine lemmas. -/

lemma haversine_self (lat lon : ℝ) : haversine_km lat lon lat lon = 0 := by
  unfold haversine_km radians
  simp

lemma haversine_nonneg (aLat aLon bLat bLon : ℝ) :
    0 ≤ haversine_km aLat aLon bLat bLon := by
  unfold haversine_km
  have h : 0 ≤ Real.arcsin (Real.sqrt (Real.sin (radians (bLat - aLat) / 2) ^ 2 +
      Real.cos (radians aLat) * Real.cos (radians bLat) *
        Real.sin (radians (bLon - aLon) / 2) ^ 2)) :=
    Real.arcsin_nonneg.mpr (Real.sqrt_nonneg _)
  nlinarith

/-! Characterisation of the normalisation loop. -/

lemma normLoop_fst (mLat mLon s : ℝ) (l : List Sample) :
    ∀ prevLat prevLon cum : ℝ,
      (normLoop mLat mLon s prevLat prevLon cum l).1 =
        l.map fun p =>
          (margin + (p.2.1 - mLon) * s, height - margin - (p.1 - mLat) * s) := by
  induction l with
  | nil => intro pl po c; simp [normLoop]
  | cons p rest ih =>
      intro pl po c
      obtain ⟨lat, lon, ele⟩ := p
      simp [normLoop, ih]

lemma normLoop_snd (mLat mLon s : ℝ) (l : List Sample) :
    ∀ prevLat prevLon cum : ℝ,
      (normLoop mLat mLon s prevLat prevLon cum l).2 =
        List.zipWith (fun cu p => (pyRound2 cu, (pyRound p.2.2 : ℝ)))
          (cumSeq prevLat prevLon cum l) l := by
  induction l with
  | nil => intro pl po c; simp [normLoop, cumSeq]
  | cons p rest ih =>
      intro pl po c
      obtain ⟨lat, lon, ele⟩ := p
      simp [normLoop, cumSeq, ih]

lemma cumSeq_length (l : List Sample) :
    ∀ prevLat prevLon cum : ℝ,
      (cumSeq prevLat prevLon cum l).length = l.length := by
  induction l with
  | nil => intro pl po c; simp [cumSeq]
  | cons p rest ih =>
      intro pl po c
      obtain ⟨lat, lon, ele⟩ := p
      simp [cumSeq, ih]

lemma cumSeq_chain (l : List Sample) :
    ∀ prevLat prevLon cum : ℝ,
      List.Chain' (· ≤ ·) (cumSeq prevLat prevLon cum l) := by
  induction l with
  | nil => intro pl po c; simp [cumSeq]
  | cons p rest ih =>
      intro pl po c
      obtain ⟨lat, lon, ele⟩ := p
      cases rest with
      | nil => simp [cumSeq]
      | cons q rest2 =>
          obtain ⟨qlat, qlon, qele⟩ := q
          simp only [cumSeq]
          refine List.chain'_cons.mpr ⟨?_, ?_⟩
          · have h := haversine_nonneg lat lon qlat qlon
            linarith
          · have h := ih lat lon (c + haversine_km pl po lat lon)
            simpa [cumSeq] using h

lemma map_fst_profile (cs : List ℝ) :
    ∀ l : List Sample, cs.length = l.length →
      (List.zipWith (fun cu p => (pyRound2 cu, (pyRound p.2.2 : ℝ)))
          cs l).map Prod.fst = cs.map pyRound2 := by
  induction cs with
  | nil => intro l _; simp
  | cons c ct ih =>
      intro l hl
      cases l with
      | nil => simp at hl
      | cons p pt =>
          simp only [List.zipWith_cons_cons, List.map_cons]
          rw [ih pt (by simpa using hl)]

/-! Offset bounds used for the bounding invariant. -/

lemma lon_offset_le {pts : List Sample} {p : Sample} (hp : p ∈ pts) :
    (p.2.1 - min_lon pts) * scale pts ≤ width - 2 * margin := by
  have hd0 : 0 ≤ p.2.1 - min_lon pts := sub_nonneg.mpr (min_lon_le hp)
  have hdr : p.2.1 - min_lon pts ≤ lon_range pts := by
    have h := le_max_lon hp
    unfold lon_range
    linarith
  have hs := scale_pos pts
  have hsle : scale pts ≤ scale_lon pts := min_le_right _ _
  unfold scale_lon at hsle
  split_ifs at hsle with h
  · rw [le_div_iff₀ h] at hsle
    calc (p.2.1 - min_lon pts) * scale pts
        ≤ lon_range pts * scale pts :=
          mul_le_mul_of_nonneg_right hdr (le_of_lt hs)
      _ = scale pts * lon_range pts := mul_comm _ _
      _ ≤ width - 2 * margin := hsle
  · have hr0 : lon_range pts ≤ 0 := not_lt.mp h
    have hd : p.2.1 - min_lon pts = 0 := le_antisymm (le_trans hdr hr0) hd0
    rw [hd, zero_mul]
    norm_num [width, margin]

lemma lat_offset_le {pts : List Sample} {p : Sample} (hp : p ∈ pts) :
    (p.1 - min_lat pts) * scale pts ≤ height - 2 * margin := by
  have hd0 : 0 ≤ p.1 - min_lat pts := sub_nonneg.mpr (min_lat_le hp)
  have hdr : p.1 - min_lat pts ≤ lat_range pts := by
    have h := le_max_lat hp
    unfold lat_range
    linarith
  have hs := scale_pos pts
  have hsle : scale pts ≤ scale_lat pts := min_le_left _ _
  unfold scale_lat at hsle
  split_ifs at hsle with h
  · rw [le_div_iff₀ h] at hsle
    calc (p.1 - min_lat pts) * scale pts
        ≤ lat_range pts * scale pts :=
          mul_le_mul_of_nonneg_right hdr (le_of_lt hs)
      _ = scale pts * lat_range pts := mul_comm _ _
      _ ≤ height - 2 * margin := hsle
  · have hr0 : lat_range pts ≤ 0 := not_lt.mp h
    have hd : p.1 - min_lat pts = 0 := le_antisymm (le_trans hdr hr0) hd0
    rw [hd, zero_mul]
    norm_num [height, margin]

/-! Indexing the profile zip. -/

lemma zipWith_profile_snd (cs : List ℝ) :
    ∀ (l : List Sample) (i : ℕ) (h : i < l.length), cs.length = l.length →
      ((List.zipWith (fun cu p => (pyRound2 cu, (pyRound p.2.2 : ℝ)))
          cs l)[i]?).map Prod.snd = some ((pyRound (l.get ⟨i, h⟩).2.2 : ℝ)) := by
  induction cs with
  | nil =>
      intro l i h hl
      cases l with
      | nil => simp at h
      | cons p pt => simp at hl
  | cons c ct ih =>
      intro l i h hl
      cases l with
      | nil => simp at h
      | cons p pt =>
          cases i with
          | zero => simp
          | succ n =>
              have hn : n < pt.length := by simpa using h
              have hl2 : ct.length = pt.length := by simpa using hl
              simpa using ih pt n hn hl2

/-! String rendering of the path. -/

lemma space_L_append (X : String) : " " ++ ("L " ++ X) = " L " ++ X := by
  rw [← String.append_assoc]
  congr 1

lemma renderCmds_lineTo (rs : List (ℝ × ℝ)) :
    ∀ a : ℝ × ℝ,
      renderCmds (PathCmd.lineTo a.1 a.2 :: rs.map fun q => PathCmd.lineTo q.1 q.2) =
        "L " ++ joinWith " L " ((a :: rs).map fun q => coordStr q.1 q.2) := by
  induction rs with
  | nil => intro a; simp [renderCmds, joinWith, renderCmd]
  | cons b bs ih =>
      intro a
      simp only [List.map_cons, renderCmds, renderCmd, joinWith]
      rw [ih b]
      simp only [List.map_cons, String.append_assoc, space_L_append]

lemma build_path_renders (p : ℝ × ℝ) (rest : List (ℝ × ℝ)) :
    "M " ++ joinWith " L " ((p :: rest).map fun q => coordStr q.1 q.2) =
      renderCmds (pathCmds (p :: rest)) := by
  cases rest with
  | nil => simp [joinWith, renderCmds, renderCmd, pathCmds]
  | cons r rs =>
      simp only [pathCmds, List.map_cons, renderCmds, renderCmd]
      rw [renderCmds_lineTo rs r]
      simp only [List.map_cons, joinWith]
      simp only [String.append_assoc, space_L_append]

/-! Elevation independence. -/

lemma cumSeq_congr (l1 : List Sample) :
    ∀ l2 : List Sample,
      l1.map (fun p => (p.1, p.2.1)) = l2.map (fun p => (p.1, p.2.1)) →
      ∀ prevLat prevLon cum : ℝ,
        cumSeq prevLat prevLon cum l1 = cumSeq prevLat prevLon cum l2 := by
  induction l1 with
  | nil =>
      intro l2 h pl po c
      cases l2 with
      | nil => rfl
      | cons q t2 => simp at h
  | cons p t1 ih =>
      intro l2 h pl po c
      cases l2 with
      | nil => simp at h
      | cons q t2 =>
          obtain ⟨la, lo, e⟩ := p
          obtain ⟨la2, lo2, e2⟩ := q
          simp only [List.map_cons, List.cons.injEq, Prod.mk.injEq] at h
          obtain ⟨⟨h1, h2⟩, h3⟩ := h
          subst h1
          subst h2
          simp only [cumSeq]
          rw [ih t2 h3]

lemma min_lat_congr {l1 l2 : List Sample}
    (h : l1.map (fun p => p.1) = l2.map fun p => p.1) :
    min_lat l1 = min_lat l2 := by
  cases l1 with
  | nil =>
      cases l2 with
      | nil => rfl
      | cons q t2 => simp at h
  | cons p t1 =>
      cases l2 with
      | nil => simp at h
      | cons q t2 =>
          simp only [List.map_cons, List.cons.injEq] at h
          simp only [min_lat, h.1]
          rw [show t1.map (fun q : Sample => q.1) = t2.map fun q : Sample => q.1 from h.2]

lemma max_lat_congr {l1 l2 : List Sample}
    (h : l1.map (fun p => p.1) = l2.map fun p => p.1) :
    max_lat l1 = max_lat l2 := by
  cases l1 with
  | nil =>
      cases l2 with
      | nil => rfl
      | cons q t2 => simp at h
  | cons p t1 =>
      cases l2 with
      | nil => simp at h
      | cons q t2 =>
          simp only [List.map_cons, List.cons.injEq] at h
          simp only [max_lat, h.1]
          rw [show t1.map (fun q : Sample => q.1) = t2.map fun q : Sample => q.1 from h.2]

lemma min_lon_congr {l1 l2 : List Sample}
    (h : l1.map (fun p => p.2.1) = l2.map fun p => p.2.1) :
    min_lon l1 = min_lon l2 := by
  cases l1 with
  | nil =>
      cases l2 with
      | nil => rfl
      | cons q t2 => simp at h
  | cons p t1 =>
      cases l2 with
      | nil => simp at h
      | cons q t2 =>
          simp only [List.map_cons, List.cons.injEq] at h
          simp only [min_lon, h.1]
          rw [show t1.map (fun q : Sample => q.2.1) = t2.map fun q : Sample => q.2.1 from h.2]

lemma max_lon_congr {l1 l2 : List Sample}
    (h : l1.map (fun p => p.2.1) = l2.map fun p => p.2.1) :
    max_lon l1 = max_lon l2 := by
  cases l1 with
  | nil =>
      cases l2 with
      | nil => rfl
      | cons q t2 => simp at h
  | cons p t1 =>
      cases l2 with
      | nil => simp at h
      | cons q t2 =>
          simp only [List.map_cons, List.cons.injEq] at h
          simp only [max_lon, h.1]
          rw [show t1.map (fun q : Sample => q.2.1) = t2.map fun q : Sample => q.2.1 from h.2]

/-! Assembled forms of the two outputs of normalize_coordinates. -/

lemma normalize_fst_eq (p : Sample) (rest : List Sample) :
    (normalize_coordinates (p :: rest)).1 =
      (p :: rest).map fun q =>
        (margin + (q.2.1 - min_lon (p :: rest)) * scale (p :: rest),
         height - margin - (q.1 - min_lat (p :: rest)) * scale (p :: rest)) := by
  simp only [normalize_coordinates]
  exact normLoop_fst _ _ _ _ _ _ _

lemma normalize_snd_eq (p : Sample) (rest : List Sample) :
    (normalize_coordinates (p :: rest)).2 =
      List.zipWith (fun cu q => (pyRound2 cu, (pyRound q.2.2 : ℝ)))
        (cumSeq p.1 p.2.1 0 (p :: rest)) (p :: rest) := by
  simp only [normalize_coordinates]
  exact normLoop_snd _ _ _ _ _ _ _

/-- C1: for a non-empty input, normalize_coordinates maps sample i to the
drawing point x = margin + (lon - min_lon) * scale and
y = height - margin - (lat - min_lat) * scale, where scale is the minimum
of scale_lat = (height - 2 margin) / lat_range (1 when lat_range is not
positive) and scale_lon = (width - 2 margin) / lon_range (1 when lon_range
is not positive). -/
theorem normalize_point_formula (pts : List Sample) (hne : pts ≠ [])
    (i : ℕ) (h : i < pts.length) :
    (normalize_coordinates pts).1[i]? =
      some (margin + ((pts.get ⟨i, h⟩).2.1 - min_lon pts) *
          min (if lat_range pts > 0 then (height - 2 * margin) / lat_range pts else 1)
            (if lon_range pts > 0 then (width - 2 * margin) / lon_range pts else 1),
        height - margin - ((pts.get ⟨i, h⟩).1 - min_lat pts) *
          min (if lat_range pts > 0 then (height - 2 * margin) / lat_range pts else 1)
            (if lon_range pts > 0 then (width - 2 * margin) / lon_range pts else 1)) := by
  cases pts with
  | nil => exact absurd rfl hne
  | cons p rest =>
      rw [normalize_fst_eq, List.getElem?_map, List.getElem?_eq_getElem h]
      simp only [Option.map_some', List.get_eq_getElem]
      rfl

/-- C1 witness: the formula instantiated at the one-sample input
(48, 2, 35) at index 0. -/
theorem normalize_point_formula_witness :
    ([((48 : ℝ), 2, 35)] ≠ ([] : List Sample)) ∧
    (normalize_coordinates [((48 : ℝ), 2, 35)]).1[0]? =
      some (margin + (([((48 : ℝ), 2, 35)].get ⟨0, by norm_num⟩).2.1 -
            min_lon [((48 : ℝ), 2, 35)]) *
          min (if lat_range [((48 : ℝ), 2, 35)] > 0 then
                (height - 2 * margin) / lat_range [((48 : ℝ), 2, 35)] else 1)
            (if lon_range [((48 : ℝ), 2, 35)] > 0 then
                (width - 2 * margin) / lon_range [((48 : ℝ), 2, 35)] else 1),
        height - margin - (([((48 : ℝ), 2, 35)].get ⟨0, by norm_num⟩).1 -
            min_lat [((48 : ℝ), 2, 35)]) *
          min (if lat_range [((48 : ℝ), 2, 35)] > 0 then
                (height - 2 * margin) / lat_range [((48 : ℝ), 2, 35)] else 1)
            (if lon_range [((48 : ℝ), 2, 35)] > 0 then
                (width - 2 * margin) / lon_range [((48 : ℝ), 2, 35)] else 1)) :=
  ⟨by simp, normalize_point_formula [((48 : ℝ), 2, 35)] (by simp) 0 (by norm_num)⟩

/-- C4: normalize_coordinates on the empty input returns two empty
sequences, and the path serializer produces no path for an empty point
sequence. -/
theorem empty_input_empty_output :
    normalize_coordinates [] = ([], []) ∧ build_path [] = none :=
  ⟨rfl, rfl⟩

/-- C5: on two samples with identical latitude and longitude but arbitrary
elevations, both drawing points coincide and both profile distance values
are 0. -/
theorem degenerate_duplicate_sample (la lo e1 e2 : ℝ) :
    ∃ q : ℝ × ℝ,
      (normalize_coordinates [(la, lo, e1), (la, lo, e2)]).1 = [q, q] ∧
      (normalize_coordinates [(la, lo, e1), (la, lo, e2)]).2.map Prod.fst =
        [0, 0] := by
  refine ⟨(margin, height - margin), ?_, ?_⟩
  · simp [normalize_coordinates, normLoop, min_lat, min_lon, scale, scale_lat,
      scale_lon, lat_range, lon_range, max_lat, max_lon, listMin, listMax]
  · simp [normalize_coordinates, normLoop, haversine_self, pyRound2_zero]

/-- C7: if one sample has a strictly greater latitude than another and the
same longitude, its drawing point has a strictly smaller y coordinate
(north is up). -/
theorem north_up_orientation (pts : List Sample) (i j : ℕ)
    (hi : i < pts.length) (hj : j < pts.length)
    (hlat : (pts.get ⟨i, hi⟩).1 < (pts.get ⟨j, hj⟩).1)
    (hlon : (pts.get ⟨i, hi⟩).2.1 = (pts.get ⟨j, hj⟩).2.1) :
    ∃ qi qj : ℝ × ℝ,
      (normalize_coordinates pts).1[i]? = some qi ∧
      (normalize_coordinates pts).1[j]? = some qj ∧ qj.2 < qi.2 := by
  cases pts with
  | nil => simp at hi
  | cons p rest =>
      refine ⟨(margin + (((p :: rest).get ⟨i, hi⟩).2.1 - min_lon (p :: rest)) *
            scale (p :: rest),
          height - margin - (((p :: rest).get ⟨i, hi⟩).1 - min_lat (p :: rest)) *
            scale (p :: rest)),
        (margin + (((p :: rest).get ⟨j, hj⟩).2.1 - min_lon (p :: rest)) *
            scale (p :: rest),
          height - margin - (((p :: rest).get ⟨j, hj⟩).1 - min_lat (p :: rest)) *
            scale (p :: rest)), ?_, ?_, ?_⟩
      · rw [normalize_fst_eq, List.getElem?_map, List.getElem?_eq_getElem hi]
        rfl
      · rw [normalize_fst_eq, List.getElem?_map, List.getElem?_eq_getElem hj]
        rfl
      · have hs := scale_pos (p :: rest)
        have hm := mul_lt_mul_of_pos_right
          (sub_lt_sub_right hlat (min_lat (p :: rest))) hs
        dsimp only
        linarith

/-- C7 witness: two samples at longitude 0 with latitudes 0 and 1. -/
theorem north_up_orientation_witness :
    (0 : ℕ) < ([((0 : ℝ), 0, 0), ((1 : ℝ), 0, 0)] : List Sample).length ∧
    (1 : ℕ) < ([((0 : ℝ), 0, 0), ((1 : ℝ), 0, 0)] : List Sample).length ∧
    (∃ qi qj : ℝ × ℝ,
      (normalize_coordinates [((0 : ℝ), 0, 0), ((1 : ℝ), 0, 0)]).1[0]? = some qi ∧
      (normalize_coordinates [((0 : ℝ), 0, 0), ((1 : ℝ), 0, 0)]).1[1]? = some qj ∧
      qj.2 < qi.2) :=
  ⟨by norm_num, by norm_num,
    north_up_orientation [((0 : ℝ), 0, 0), ((1 : ℝ), 0, 0)] 0 1
      (by norm_num) (by norm_num) (by norm_num) (by norm_num)⟩

/-- C2: with width 800, height 600 and margin 20, every drawing point of a
non-empty input whose latitudes lie in [-90, 90] and longitudes in
[-180, 180] satisfies margin ≤ x ≤ width - margin and
margin ≤ y ≤ height - margin, including degenerate zero-range inputs. -/
theorem normalize_points_in_bounds (pts : List Sample) (hne : pts ≠ [])
    (hlat : ∀ p ∈ pts, -90 ≤ p.1 ∧ p.1 ≤ 90)
    (hlon : ∀ p ∈ pts, -180 ≤ p.2.1 ∧ p.2.1 ≤ 180) :
    ∀ q ∈ (normalize_coordinates pts).1,
      margin ≤ q.1 ∧ q.1 ≤ width - margin ∧
      margin ≤ q.2 ∧ q.2 ≤ height - margin := by
  cases pts with
  | nil => exact absurd rfl hne
  | cons p rest =>
      intro q hq
      rw [normalize_fst_eq] at hq
      obtain ⟨r, hr, rfl⟩ := List.mem_map.mp hq
      have hs := scale_pos (p :: rest)
      have hx0 : 0 ≤ (r.2.1 - min_lon (p :: rest)) * scale (p :: rest) :=
        mul_nonneg (sub_nonneg.mpr (min_lon_le hr)) (le_of_lt hs)
      have hy0 : 0 ≤ (r.1 - min_lat (p :: rest)) * scale (p :: rest) :=
        mul_nonneg (sub_nonneg.mpr (min_lat_le hr)) (le_of_lt hs)
      have hx1 := lon_offset_le hr
      have hy1 := lat_offset_le hr
      dsimp only
      exact ⟨by linarith, by linarith, by linarith, by linarith⟩

/-- C2 witness: the bounds instantiated at the one-sample input
(48, 2, 35). -/
theorem normalize_points_in_bounds_witness :
    (([((48 : ℝ), 2, 35)] : List Sample) ≠ []) ∧
    (∀ p ∈ ([((48 : ℝ), 2, 35)] : List Sample), -90 ≤ p.1 ∧ p.1 ≤ 90) ∧
    (∀ p ∈ ([((48 : ℝ), 2, 35)] : List Sample), -180 ≤ p.2.1 ∧ p.2.1 ≤ 180) ∧
    (∀ q ∈ (normalize_coordinates [((48 : ℝ), 2, 35)]).1,
      margin ≤ q.1 ∧ q.1 ≤ width - margin ∧
      margin ≤ q.2 ∧ q.2 ≤ height - margin) :=
  ⟨by simp,
   by intro p hp; rw [List.mem_singleton] at hp; subst hp; norm_num,
   by intro p hp; rw [List.mem_singleton] at hp; subst hp; norm_num,
   normalize_points_in_bounds _ (by simp)
     (by intro p hp; rw [List.mem_singleton] at hp; subst hp; norm_num)
     (by intro p hp; rw [List.mem_singleton] at hp; subst hp; norm_num)⟩

/-- C3: for a non-empty input with latitudes in [-90, 90], the cumulative
distances of the profile are non-decreasing and the first entry is 0. -/
theorem profile_distance_monotone (pts : List Sample) (hne : pts ≠ [])
    (hlat : ∀ p ∈ pts, -90 ≤ p.1 ∧ p.1 ≤ 90) :
    List.Chain' (· ≤ ·) ((normalize_coordinates pts).2.map Prod.fst) ∧
    ((normalize_coordinates pts).2.map Prod.fst).head? = some 0 := by
  cases pts with
  | nil => exact absurd rfl hne
  | cons p rest =>
      have hmap : (normalize_coordinates (p :: rest)).2.map Prod.fst =
          (cumSeq p.1 p.2.1 0 (p :: rest)).map pyRound2 := by
        rw [normalize_snd_eq]
        exact map_fst_profile _ _ (cumSeq_length _ _ _ _)
      constructor
      · rw [hmap]
        exact (List.chain'_map pyRound2).mpr
          ((cumSeq_chain _ _ _ _).imp fun a b hab => pyRound2_mono hab)
      · rw [hmap]
        obtain ⟨la, lo, e⟩ := p
        simp [cumSeq, haversine_self, pyRound2_zero]

/-- C3 witness: monotonicity and zero start instantiated at the one-sample
input (48, 2, 35). -/
theorem profile_distance_monotone_witness :
    (([((48 : ℝ), 2, 35)] : List Sample) ≠ []) ∧
    (∀ p ∈ ([((48 : ℝ), 2, 35)] : List Sample), -90 ≤ p.1 ∧ p.1 ≤ 90) ∧
    (List.Chain' (· ≤ ·)
        ((normalize_coordinates [((48 : ℝ), 2, 35)]).2.map Prod.fst) ∧
      ((normalize_coordinates [((48 : ℝ), 2, 35)]).2.map Prod.fst).head? =
        some 0) :=
  ⟨by simp,
   by intro p hp; rw [List.mem_singleton] at hp; subst hp; norm_num,
   profile_distance_monotone _ (by simp)
     (by intro p hp; rw [List.mem_singleton] at hp; subst hp; norm_num)⟩

/-- C6: for a non-empty input of length N both outputs have length N, and
entry i of each is determined by input sample i: the drawing point is
pointOf applied to sample i and the profile elevation is the rounded
elevation of sample i. -/
theorem normalize_index_alignment (pts : List Sample) (hne : pts ≠ []) :
    (normalize_coordinates pts).1.length = pts.length ∧
    (normalize_coordinates pts).2.length = pts.length ∧
    ∀ i (h : i < pts.length),
      (normalize_coordinates pts).1[i]? = some (pointOf pts (pts.get ⟨i, h⟩)) ∧
      ((normalize_coordinates pts).2[i]?).map Prod.snd =
        some ((pyRound (pts.get ⟨i, h⟩).2.2 : ℝ)) := by
  cases pts with
  | nil => exact absurd rfl hne
  | cons p rest =>
      have hlen2 : (cumSeq p.1 p.2.1 0 (p :: rest)).length =
          (p :: rest).length := cumSeq_length _ _ _ _
      refine ⟨?_, ?_, ?_⟩
      · rw [normalize_fst_eq, List.length_map]
      · rw [normalize_snd_eq, List.length_zipWith, hlen2, min_self]
      · intro i h
        constructor
        · rw [normalize_fst_eq, List.getElem?_map, List.getElem?_eq_getElem h]
          rfl
        · rw [normalize_snd_eq]
          exact zipWith_profile_snd _ _ i h hlen2

/-- C6 witness: lengths and alignment instantiated at the one-sample input
(48, 2, 35). -/
theorem normalize_index_alignment_witness :
    (([((48 : ℝ), 2, 35)] : List Sample) ≠ []) ∧
    ((normalize_coordinates [((48 : ℝ), 2, 35)]).1.length =
        ([((48 : ℝ), 2, 35)] : List Sample).length ∧
      (normalize_coordinates [((48 : ℝ), 2, 35)]).2.length =
        ([((48 : ℝ), 2, 35)] : List Sample).length ∧
      ∀ i (h : i < ([((48 : ℝ), 2, 35)] : List Sample).length),
        (normalize_coordinates [((48 : ℝ), 2, 35)]).1[i]? =
          some (pointOf [((48 : ℝ), 2, 35)]
            (([((48 : ℝ), 2, 35)] : List Sample).get ⟨i, h⟩)) ∧
        ((normalize_coordinates [((48 : ℝ), 2, 35)]).2[i]?).map Prod.snd =
          some ((pyRound
            (([((48 : ℝ), 2, 35)] : List Sample).get ⟨i, h⟩).2.2 : ℝ))) :=
  ⟨by simp, normalize_index_alignment _ (by simp)⟩

/-- C8: every profile entry pairs the running accumulator value rounded to
two decimal places with the sample elevation rounded to the nearest
integer. -/
theorem profile_entry_rounding (p : Sample) (rest : List Sample) :
    (normalize_coordinates (p :: rest)).2 =
      List.zipWith (fun cu q => (pyRound2 cu, (pyRound q.2.2 : ℝ)))
        (cumSeq p.1 p.2.1 0 (p :: rest)) (p :: rest) :=
  normalize_snd_eq p rest

/-- C9: for a non-empty point sequence the serializer emits the rendering
of a move-to command for the first point followed by line-to commands for
each subsequent point in input order, coordinates formatted with two
decimals, one command per input point. -/
theorem path_serialization (p : ℝ × ℝ) (rest : List (ℝ × ℝ)) :
    build_path (p :: rest) =
      some (renderCmds (PathCmd.moveTo p.1 p.2 ::
        rest.map fun q => PathCmd.lineTo q.1 q.2)) ∧
    (pathCmds (p :: rest) =
      PathCmd.moveTo p.1 p.2 :: rest.map fun q => PathCmd.lineTo q.1 q.2) ∧
    (pathCmds (p :: rest)).length = (p :: rest).length := by
  refine ⟨?_, rfl, ?_⟩
  · simp only [build_path]
    rw [build_path_renders]
    rfl
  · simp [pathCmds]

/-- C10: elevations have no effect on the drawing points or on the
cumulative distances: inputs agreeing on all latitudes and longitudes give
the same drawing points and the same profile distances. -/
theorem elevation_frame_effect (pts1 pts2 : List Sample)
    (h : pts1.map (fun p => (p.1, p.2.1)) = pts2.map fun p => (p.1, p.2.1)) :
    (normalize_coordinates pts1).1 = (normalize_coordinates pts2).1 ∧
    (normalize_coordinates pts1).2.map Prod.fst =
      (normalize_coordinates pts2).2.map Prod.fst := by
  have hlat : pts1.map (fun p => p.1) = pts2.map fun p => p.1 := by
    have hc := congrArg (List.map Prod.fst) h
    simpa [List.map_map, Function.comp] using hc
  have hlon : pts1.map (fun p => p.2.1) = pts2.map fun p => p.2.1 := by
    have hc := congrArg (List.map Prod.snd) h
    simpa [List.map_map, Function.comp] using hc
  cases pts1 with
  | nil =>
      cases pts2 with
      | nil => exact ⟨rfl, rfl⟩
      | cons q t2 => simp at h
  | cons p t1 =>
      cases pts2 with
      | nil => simp at h
      | cons q t2 =>
          have hminlat := min_lat_congr hlat
          have hminlon := min_lon_congr hlon
          have hscale : scale (p :: t1) = scale (q :: t2) := by
            unfold scale scale_lat scale_lon lat_range lon_range
            rw [min_lat_congr hlat, max_lat_congr hlat,
              min_lon_congr hlon, max_lon_congr hlon]
          have hp1 : p.1 = q.1 := by
            have hh := congrArg (fun l => l.head?) hlat
            simpa using hh
          have hp2 : p.2.1 = q.2.1 := by
            have hh := congrArg (fun l => l.head?) hlon
            simpa using hh
          constructor
          · rw [normalize_fst_eq, normalize_fst_eq, hminlat, hminlon, hscale]
            have hfac : ∀ l : List Sample,
                (l.map fun r =>
                  (margin + (r.2.1 - min_lon (q :: t2)) * scale (q :: t2),
                   height - margin - (r.1 - min_lat (q :: t2)) * scale (q :: t2))) =
                (l.map fun r => (r.1, r.2.1)).map fun c =>
                  (margin + (c.2 - min_lon (q :: t2)) * scale (q :: t2),
                   height - margin - (c.1 - min_lat (q :: t2)) * scale (q :: t2)) := by
              intro l
              rw [List.map_map]
              rfl
            rw [hfac, hfac, h]
          · rw [normalize_snd_eq, normalize_snd_eq,
              map_fst_profile _ _ (cumSeq_length _ _ _ _),
              map_fst_profile _ _ (cumSeq_length _ _ _ _),
              hp1, hp2, cumSeq_congr _ _ h]

/-- C10 witness: two one-sample inputs agreeing on latitude and longitude
but with elevations 1 and 5. -/
theorem elevation_frame_effect_witness :
    (([((0 : ℝ), 0, 1)] : List Sample).map (fun p => (p.1, p.2.1)) =
      ([((0 : ℝ), 0, 5)] : List Sample).map fun p => (p.1, p.2.1)) ∧
    ((normalize_coordinates [((0 : ℝ), 0, 1)]).1 =
        (normalize_coordinates [((0 : ℝ), 0, 5)]).1 ∧
      (normalize_coordinates [((0 : ℝ), 0, 1)]).2.map Prod.fst =
        (normalize_coordinates [((0 : ℝ), 0, 5)]).2.map Prod.fst) :=
  ⟨rfl, elevation_frame_effect _ _ rfl⟩

end GpxToSvg
